import Mathlib

/-!
# rust_utils — verification of the specified data structures

The repository ships only generated API metadata (`docs/search-index.js`,
`docs/implementors/core/marker/trait.Sync.js`); the Rust sources of
`BTrieMap` and `XorLinkedList` are not present. The executable models
below are therefore reconstructed from the specification (each such
definition is marked `Modelled from the spec:`), while the `Sync`
implementor table is transcribed directly from
`docs/implementors/core/marker/trait.Sync.js`, which is present.
-/

set_option autoImplicit false
set_option linter.unusedSectionVars false

namespace RustUtils

variable {α : Type} [DecidableEq α] {β : Type}

/-! ## BTrieMap

Modelled from the spec: a trie node owns a mapping from a single key
segment to a child node, plus an optional value marking "a key terminates
here" (spec §3). Children are kept as an association list from segment to
child; nodes are created lazily on insertion along the needed path. -/

/-- Modelled from the spec: a trie node (`Node` of §3): an optional
terminal value and an owned mapping from key segment to child node. -/
inductive Trie (α β : Type) : Type where
  | mk : Option β → List (α × Trie α β) → Trie α β

/-- The empty trie node: no value, no children. -/
def Trie.empty : Trie α β := .mk none []

/-- Look up the child for segment `a` in a children association list. -/
def lookupChild (a : α) : List (α × Trie α β) → Option (Trie α β)
  | [] => none
  | (b, t) :: rest => if a = b then some t else lookupChild a rest

/-- Replace the child stored under segment `a` (no-op if absent). -/
def replaceChild (a : α) (t' : Trie α β) : List (α × Trie α β) → List (α × Trie α β)
  | [] => []
  | (b, t) :: rest => if a = b then (b, t') :: rest else (b, t) :: replaceChild a t' rest

/-- Modelled from the spec: `insert(key, value)` walks/creates the path for
`key`'s segments; if a value already lives at the terminal node it is
replaced and the old value is returned, else `None` (spec §4.1). -/
def Trie.insert : List α → β → Trie α β → Option β × Trie α β
  | [], v, .mk ov cs => (ov, .mk (some v) cs)
  | a :: s, v, .mk ov cs =>
    match lookupChild a cs with
    | some t =>
      let r := t.insert s v
      (r.1, .mk ov (replaceChild a r.2 cs))
    | none =>
      let r := (Trie.empty : Trie α β).insert s v
      (none, .mk ov (cs ++ [(a, r.2)]))

/-- Modelled from the spec: `get(key)` walks the path and returns the value
only if the terminal node for `key` is marked terminal (spec §4.1). -/
def Trie.get : List α → Trie α β → Option β
  | [], .mk ov _ => ov
  | a :: s, .mk _ cs =>
    match lookupChild a cs with
    | some t => t.get s
    | none => none

/-- Walk to the node reached by a segment sequence, if any. -/
def Trie.walk : List α → Trie α β → Option (Trie α β)
  | [], t => some t
  | a :: s, .mk _ cs =>
    match lookupChild a cs with
    | some t => t.walk s
    | none => none

mutual
/-- All values stored in a subtree, depth-first by segment order. -/
def Trie.values : Trie α β → List β
  | .mk ov cs => ov.toList ++ valuesOf cs

/-- All values stored below a children list, in list order. -/
def valuesOf : List (α × Trie α β) → List β
  | [] => []
  | (_, t) :: rest => t.values ++ valuesOf rest
end

/-- Well-formedness of a trie: every children association list has
pairwise-distinct segment keys. Every map reachable through the public
API satisfies this. -/
inductive TrieWF : Trie α β → Prop where
  | mk : ∀ (ov : Option β) (cs : List (α × Trie α β)),
      (cs.map Prod.fst).Nodup → (∀ p ∈ cs, TrieWF p.2) → TrieWF (.mk ov cs)

/-- Modelled from the spec: `BTrieMap` owns the root node (spec §3). -/
structure BTrieMap (α β : Type) : Type where
  root : Trie α β

/-- Modelled from the spec: `new()/default()` give the empty map. -/
def BTrieMap.new : BTrieMap α β := ⟨Trie.empty⟩

/-- `insert` on the map: returns the previous value and the updated map. -/
def BTrieMap.insert (m : BTrieMap α β) (k : List α) (v : β) : Option β × BTrieMap α β :=
  let r := m.root.insert k v
  (r.1, ⟨r.2⟩)

/-- `get` on the map. -/
def BTrieMap.get (m : BTrieMap α β) (k : List α) : Option β :=
  m.root.get k

/-- Modelled from the spec: `contains(key)` is as `get`, but only existence. -/
def BTrieMap.contains (m : BTrieMap α β) (k : List α) : Bool :=
  (m.get k).isSome

/-- Modelled from the spec: `get_with_prefix(key_prefix)` walks to the node
matching the prefix, then collects every value marked terminal in that
subtree (spec §4.1). -/
def BTrieMap.getWithPrefix (m : BTrieMap α β) (p : List α) : List β :=
  match m.root.walk p with
  | some t => t.values
  | none => []

/-- Insert a list of bindings in order, starting from a given map. -/
def BTrieMap.insertList (m : BTrieMap α β) (l : List (List α × β)) : BTrieMap α β :=
  l.foldl (fun m kv => (m.insert kv.1 kv.2).2) m

/-- The last value bound to `k` in a binding list, if any. -/
def lookupLast : List (List α × β) → List α → Option β
  | [], _ => none
  | kv :: rest, k =>
    match lookupLast rest k with
    | some v => some v
    | none => if kv.1 = k then some kv.2 else none

/-- Example bindings for the C2 witness. -/
def c2Bindings : List (List Nat × Nat) := [([1], 10), ([1, 2], 20), ([3], 30)]

/-- The example map of the C4 test: keys "a", "ab", "abc", "b" with
distinct values 1, 2, 3, 4 (segments as characters). -/
def c4Map : BTrieMap Char Nat :=
  BTrieMap.insertList BTrieMap.new
    [(['a'], 1), (['a', 'b'], 2), (['a', 'b', 'c'], 3), (['b'], 4)]

/-! ## XorLinkedList

Modelled from the spec: each node owns its element and a single link field
holding `address(prev) XOR address(next)`, with absent neighbors encoded
as the null address `0` (spec §3). Following the spec's own porting note
(§9), node storage is an arena of slots addressed by stable integer index:
the address `a ≥ 1` names slot `a - 1` of the list's arena. -/

/-- Modelled from the spec: a list node — the owned element plus the one
combined XOR link field (spec §3). -/
structure Node (T : Type) : Type where
  elem : T
  link : Nat

/-- Modelled from the spec: the list holds the addresses of the head and
tail nodes (both null when empty) plus a count of elements (spec §3),
and here also owns the arena backing its nodes (spec §9). -/
structure XorLinkedList (T : Type) : Type where
  arena : List (Option (Node T))
  head : Nat
  tail : Nat
  len : Nat

namespace XorLinkedList

variable {T : Type}

/-- The node stored at address `a`: none when `a` is null or the slot is
free or out of range. -/
def getNode (arena : List (Option (Node T))) (a : Nat) : Option (Node T) :=
  if a = 0 then none else arena.getD (a - 1) none

/-- Overwrite the slot addressed by `a`. -/
def setNode (arena : List (Option (Node T))) (a : Nat) (n : Option (Node T)) :
    List (Option (Node T)) :=
  arena.set (a - 1) n

/-- XOR the stored link of the node at `a` with `x`: this swaps the
neighbor address `0` for `x` (attaching a new neighbor) or `x` for `0`
(severing one), the core update step of every relinking operation. -/
def xorLink (arena : List (Option (Node T))) (a x : Nat) : List (Option (Node T)) :=
  if x = 0 then arena
  else
    match getNode arena a with
    | some n => setNode arena a (some ⟨n.elem, n.link ^^^ x⟩)
    | none => arena

/-- Modelled from the spec: `new()/default()` — the empty list. -/
def empty : XorLinkedList T := ⟨[], 0, 0, 0⟩

/-- Modelled from the spec: `is_empty()`. -/
def is_empty (l : XorLinkedList T) : Bool := l.len == 0

/-- Modelled from the spec: `push_back(v)` — O(1) insertion at the tail:
allocate the node, XOR-link it with the former tail, update tail and
length (spec §4.2). -/
def push_back (l : XorLinkedList T) (v : T) : XorLinkedList T :=
  let a := l.arena.length + 1
  if l.tail = 0 then
    ⟨l.arena ++ [some ⟨v, 0⟩], a, a, l.len + 1⟩
  else
    ⟨xorLink l.arena l.tail a ++ [some ⟨v, l.tail⟩], l.head, a, l.len + 1⟩

/-- Modelled from the spec: `push_front(v)` — O(1) insertion at the head,
mirror image of `push_back` (spec §4.2). -/
def push_front (l : XorLinkedList T) (v : T) : XorLinkedList T :=
  let a := l.arena.length + 1
  if l.head = 0 then
    ⟨l.arena ++ [some ⟨v, 0⟩], a, a, l.len + 1⟩
  else
    ⟨xorLink l.arena l.head a ++ [some ⟨v, l.head⟩], a, l.tail, l.len + 1⟩

/-- Modelled from the spec: `pop_front()` — `none` on an empty list,
otherwise the owned first element; the successor's link is recomputed to
make it the new head (spec §4.2). -/
def pop_front (l : XorLinkedList T) : Option T × XorLinkedList T :=
  match getNode l.arena l.head with
  | none => (none, l)
  | some n =>
    let arena := setNode l.arena l.head none
    if n.link = 0 then
      (some n.elem, ⟨arena, 0, 0, l.len - 1⟩)
    else
      (some n.elem, ⟨xorLink arena n.link l.head, n.link, l.tail, l.len - 1⟩)

/-- Modelled from the spec: `pop_back()` — mirror image of `pop_front`
at the tail (spec §4.2). -/
def pop_back (l : XorLinkedList T) : Option T × XorLinkedList T :=
  match getNode l.arena l.tail with
  | none => (none, l)
  | some n =>
    let arena := setNode l.arena l.tail none
    if n.link = 0 then
      (some n.elem, ⟨arena, 0, 0, l.len - 1⟩)
    else
      (some n.elem, ⟨xorLink arena n.link l.tail, l.head, n.link, l.len - 1⟩)

/-- Modelled from the spec: `front()` — peek at the head element. -/
def front (l : XorLinkedList T) : Option T := (getNode l.arena l.head).map Node.elem

/-- Modelled from the spec: `back()` — peek at the tail element. -/
def back (l : XorLinkedList T) : Option T := (getNode l.arena l.tail).map Node.elem

/-- Modelled from the spec: `clear()` releases every node. -/
def clear (_l : XorLinkedList T) : XorLinkedList T := empty

/-- Walk `fuel` nodes from address `curr` having arrived from `prev`,
recovering each next address from the XOR invariant and collecting the
elements (the traversal underlying iteration and destruction, spec §4.2). -/
def walkList (arena : List (Option (Node T))) : Nat → Nat → Nat → List T
  | 0, _, _ => []
  | fuel + 1, prev, curr =>
    match getNode arena curr with
    | none => []
    | some n => n.elem :: walkList arena fuel curr (n.link ^^^ prev)

/-- The element sequence of the list, read off by the XOR-link walk from
the head. -/
def toList (l : XorLinkedList T) : List T := walkList l.arena l.len 0 l.head

/-- Modelled from the spec: `contains(&v)` — O(n) linear scan. -/
def contains [DecidableEq T] (l : XorLinkedList T) (v : T) : Bool :=
  l.toList.contains v

/-- Modelled from the spec: `extend` appends the elements of a sequence in
iteration order, equivalent to repeated `push_back` (spec §4.2). -/
def extend (l : XorLinkedList T) (vs : List T) : XorLinkedList T :=
  vs.foldl push_back l

/-- Modelled from the spec: `from_iter` builds a list from a sequence by
repeated `push_back` (spec §4.2). -/
def fromList (vs : List T) : XorLinkedList T := extend empty vs

/-- Modelled from the spec: `append(&mut other)` moves every element of
`other` to the tail of `self` and leaves `other` empty (spec §4.2). The
original relinks the two boundary nodes in O(1); with per-list arenas
(spec §9) the moved nodes are re-allocated into `self`'s arena instead,
which changes the cost but not the resulting element sequences. -/
def append (l other : XorLinkedList T) : XorLinkedList T × XorLinkedList T :=
  (extend l other.toList, empty)

/-- Walk `k` nodes from `curr` (arrived from `prev`), returning the pair
(address of the last node walked over, address reached) — the index
location step of `split_off` (spec §4.2). -/
def walkSteps (arena : List (Option (Node T))) : Nat → Nat → Nat → Nat × Nat
  | 0, prev, curr => (prev, curr)
  | k + 1, prev, curr =>
    match getNode arena curr with
    | none => (prev, curr)
    | some n => walkSteps arena k curr (n.link ^^^ prev)

/-- Modelled from the spec: `split_off(at)` — `none` (the failure signal,
with the caller's list untouched) when `at > len`; otherwise walks to
index `at`, severs the link between index `at-1` and `at` and returns the
severed suffix as a new list (spec §4.2, §7). The suffix's nodes move to
the new list's own arena (spec §9). -/
def split_off (l : XorLinkedList T) (n : Nat) :
    Option (XorLinkedList T × XorLinkedList T) :=
  if l.len < n then none
  else
    let pc := walkSteps l.arena n 0 l.head
    let suffix := fromList (walkList l.arena (l.len - n) pc.1 pc.2)
    let kept : XorLinkedList T :=
      if n = 0 then ⟨l.arena, 0, 0, 0⟩
      else ⟨xorLink l.arena pc.1 pc.2, l.head, pc.1, n⟩
    some (kept, suffix)

/-- Modelled from the spec: the double-ended cursor behind
`Iter`/`IterMut`/`IntoIter` holds, for each direction, the current node
address and the address it arrived from, enough to recover the next node
from the XOR invariant (spec §3); the two ends have met when the count of
elements not yet yielded (the state behind `size_hint`) reaches zero. -/
structure Iter (T : Type) : Type where
  arena : List (Option (Node T))
  fPrev : Nat
  fCurr : Nat
  bNext : Nat
  bCurr : Nat
  remaining : Nat

/-- Modelled from the spec: `iter()` — a fresh double-ended cursor over
the list. -/
def iter (l : XorLinkedList T) : Iter T :=
  ⟨l.arena, 0, l.head, 0, l.tail, l.len⟩

/-- Modelled from the spec: `iter_mut()` — in the pure model the mutable
cursor steps exactly like `iter()`. -/
def iter_mut (l : XorLinkedList T) : Iter T := iter l

/-- Modelled from the spec: `into_iter()` — the owning cursor steps
exactly like `iter()`. -/
def into_iter (l : XorLinkedList T) : Iter T := iter l

/-- Modelled from the spec: forward step `next()` of the double-ended
cursor (spec §4.2). -/
def Iter.next (it : Iter T) : Option T × Iter T :=
  if it.remaining = 0 then (none, it)
  else
    match getNode it.arena it.fCurr with
    | none => (none, it)
    | some n =>
      (some n.elem,
        { it with fPrev := it.fCurr, fCurr := n.link ^^^ it.fPrev,
                  remaining := it.remaining - 1 })

/-- Modelled from the spec: backward step `next_back()` of the
double-ended cursor (spec §4.2). -/
def Iter.next_back (it : Iter T) : Option T × Iter T :=
  if it.remaining = 0 then (none, it)
  else
    match getNode it.arena it.bCurr with
    | none => (none, it)
    | some n =>
      (some n.elem,
        { it with bNext := it.bCurr, bCurr := n.link ^^^ it.bNext,
                  remaining := it.remaining - 1 })

/-- Run a cursor through a schedule of steps (`true` = `next`,
`false` = `next_back`), collecting every result. -/
def runIter : List Bool → Iter T → List (Option T)
  | [], _ => []
  | d :: ops, it =>
    let r := if d then it.next else it.next_back
    r.1 :: runIter ops r.2

/-- The reference behavior of a double-ended drain of a sequence: `true`
takes from the front, `false` from the back, exhaustion yields `none`. -/
def drainSpec : List Bool → List T → List (Option T)
  | [], _ => []
  | true :: ops, [] => none :: drainSpec ops []
  | true :: ops, x :: xs => some x :: drainSpec ops xs
  | false :: ops, xs =>
    match xs.getLast? with
    | none => none :: drainSpec ops xs
    | some x => some x :: drainSpec ops xs.dropLast

/-- Pop every element from the front, in order. -/
def drainFront : XorLinkedList T → Nat → List T
  | _, 0 => []
  | l, fuel + 1 =>
    match pop_front l with
    | (none, _) => []
    | (some x, l') => x :: drainFront l' fuel

/-- Pop every element from the back, in order. -/
def drainBack : XorLinkedList T → Nat → List T
  | _, 0 => []
  | l, fuel + 1 =>
    match pop_back l with
    | (none, _) => []
    | (some x, l') => x :: drainBack l' fuel

/-- Modelled from the spec: `eq` compares element-wise, in list order
(spec §4.2). -/
def eqList [DecidableEq T] : List T → List T → Bool
  | [], [] => true
  | x :: xs, y :: ys => if x = y then eqList xs ys else false
  | _, _ => false

/-- Modelled from the spec: `eq` on lists — element-wise equality of the
element sequences. -/
def eq [DecidableEq T] (l1 l2 : XorLinkedList T) : Bool :=
  eqList l1.toList l2.toList

/-- Lexicographic comparison of element sequences. -/
def cmpList [LinearOrder T] : List T → List T → Ordering
  | [], [] => .eq
  | [], _ :: _ => .lt
  | _ :: _, [] => .gt
  | x :: xs, y :: ys => if x < y then .lt else if y < x then .gt else cmpList xs ys

/-- Modelled from the spec: `cmp` orders lists lexicographically by their
element sequences (spec §4.2). -/
def cmp [LinearOrder T] (l1 l2 : XorLinkedList T) : Ordering :=
  cmpList l1.toList l2.toList

/-- Modelled from the spec: `partial_cmp` agrees with `cmp` (a total order
on the elements gives a total comparison). -/
def partial_cmp [LinearOrder T] (l1 l2 : XorLinkedList T) : Option Ordering :=
  some (cmp l1 l2)

/-- The same list viewed from the other end: head and tail swapped. A
symmetry device of the verification (the XOR link is direction-blind), not
an operation of the library. -/
def revView (l : XorLinkedList T) : XorLinkedList T := ⟨l.arena, l.tail, l.head, l.len⟩

/-- The XOR-link invariant along an address path: having arrived from
`prev`, the addresses `addrs` hold live nodes carrying the elements `xs`,
each node's stored link the XOR of its two neighbor addresses, the node
after the last one being `nxt` (null for the tail of a list). XOR-ing a
node's link with the arrived-from address hence yields the other
neighbor. -/
def chain (arena : List (Option (Node T))) : Nat → List Nat → List T → Nat → Prop
  | _, [], [], _ => True
  | prev, a :: rest, x :: xs, nxt =>
    a ≠ 0 ∧ getNode arena a = some ⟨x, prev ^^^ rest.headD nxt⟩ ∧
      chain arena a rest xs nxt
  | _, _, _, _ => False

/-- The structure `l` represents the element sequence `xs`: some
duplicate-free address path satisfies the XOR-chain invariant with null
at both ends, and the head, tail and length fields agree with it. -/
def Models (l : XorLinkedList T) (xs : List T) : Prop :=
  ∃ addrs : List Nat, addrs.Nodup ∧ chain l.arena 0 addrs xs 0 ∧
    l.head = addrs.headD 0 ∧ l.tail = addrs.getLastD 0 ∧ l.len = addrs.length

/-- A list state is well-formed when it represents some element
sequence — this is the structural invariant of spec §4.2. -/
def Inv (l : XorLinkedList T) : Prop := ∃ xs : List T, Models l xs

/-- The cursor invariant: `ys` are the elements not yet yielded, carried
by an address path whose chain context is the cursor's two arrived-from
addresses; the forward end sits at the path's head, the backward end at
its last node, and `remaining` counts the path. -/
def IterInv (it : Iter T) (ys : List T) : Prop :=
  ∃ addrs : List Nat, chain it.arena it.fPrev addrs ys it.bNext ∧
    it.fCurr = addrs.headD it.bNext ∧
    it.bCurr = addrs.getLastD it.fPrev ∧
    it.remaining = addrs.length

end XorLinkedList

/-! ### Sync implementor table (from `docs/implementors/core/marker/trait.Sync.js`) -/

/-- A trait bound appearing in a `Sync` implementor's `where` clause. -/
inductive TraitBound : Type where
  | sync : TraitBound
  | debug : TraitBound
deriving DecidableEq

/-- The `Sync` implementor table of
`docs/implementors/core/marker/trait.Sync.js`: for each implementing type,
the bounds required of each type parameter. Transcribed from the source
file, which is present in the repository. -/
def syncImpls : List (String × List (String × List TraitBound)) :=
  [("BTrieMap", [("K", [.sync]), ("V", [.sync])]),
   ("IntoIter", [("T", [.debug, .sync])]),
   ("XorLinkedList", [("T", [.sync, .debug])]),
   ("Iter", [("T", [.sync, .debug])]),
   ("IterMut", [("T", [.sync, .debug])])]

/-- The bounds the `Sync` impl for `ty` places on its type parameter
`p`, if such an impl is recorded. -/
def syncBounds (ty p : String) : Option (List TraitBound) :=
  match syncImpls.find? (fun e => e.1 = ty) with
  | none => none
  | some e =>
    match e.2.find? (fun q => q.1 = p) with
    | none => none
    | some q => some q.2

/-! ### Lemmas on children association lists -/

theorem lookupChild_replace_self (a : α) (t' : Trie α β) (cs : List (α × Trie α β)) :
    lookupChild a (replaceChild a t' cs) =
      (lookupChild a cs).map (fun _ => t') := by
  induction cs with
  | nil => simp [lookupChild, replaceChild]
  | cons p rest ih =>
    obtain ⟨b, t⟩ := p
    by_cases hab : a = b
    · simp [lookupChild, replaceChild, hab]
    · simp [lookupChild, replaceChild, hab, ih]

theorem lookupChild_replace_ne (a b : α) (hba : b ≠ a) (t' : Trie α β)
    (cs : List (α × Trie α β)) :
    lookupChild b (replaceChild a t' cs) = lookupChild b cs := by
  induction cs with
  | nil => simp [replaceChild]
  | cons p rest ih =>
    obtain ⟨c, t⟩ := p
    by_cases hac : a = c
    · subst hac
      simp [lookupChild, replaceChild, hba]
    · by_cases hbc : b = c
      · simp [lookupChild, replaceChild, hac, hbc]
      · simp [lookupChild, replaceChild, hac, hbc, ih]

theorem lookupChild_append (a : α) (cs ds : List (α × Trie α β)) :
    lookupChild a (cs ++ ds) =
      match lookupChild a cs with
      | some t => some t
      | none => lookupChild a ds := by
  induction cs with
  | nil => simp [lookupChild]
  | cons p rest ih =>
    obtain ⟨b, t⟩ := p
    by_cases hab : a = b
    · simp [lookupChild, hab]
    · simp [lookupChild, hab, ih]

theorem lookupChild_singleton (a : α) (t : Trie α β) :
    lookupChild a [(a, t)] = some t := by
  simp [lookupChild]

theorem lookupChild_none_not_mem (a : α) (cs : List (α × Trie α β))
    (h : lookupChild a cs = none) : a ∉ cs.map Prod.fst := by
  induction cs with
  | nil => simp
  | cons p rest ih =>
    obtain ⟨b, t⟩ := p
    by_cases hab : a = b
    · simp [lookupChild, hab] at h
    · simp [lookupChild, hab] at h
      simp [hab, ih h]

theorem map_fst_replaceChild (a : α) (t' : Trie α β) (cs : List (α × Trie α β)) :
    (replaceChild a t' cs).map Prod.fst = cs.map Prod.fst := by
  induction cs with
  | nil => simp [replaceChild]
  | cons p rest ih =>
    obtain ⟨b, t⟩ := p
    by_cases hab : a = b
    · simp [replaceChild, hab]
    · simp [replaceChild, hab, ih]

theorem mem_replaceChild (a : α) (t' : Trie α β) (cs : List (α × Trie α β))
    (p : α × Trie α β) (hp : p ∈ replaceChild a t' cs) : p ∈ cs ∨ p.2 = t' := by
  induction cs with
  | nil => simp [replaceChild] at hp
  | cons q rest ih =>
    obtain ⟨b, t⟩ := q
    by_cases hab : a = b
    · simp [replaceChild, hab] at hp
      rcases hp with hp | hp
      · right; rw [hp]
      · left; exact List.mem_cons_of_mem _ hp
    · simp [replaceChild, hab] at hp
      rcases hp with hp | hp
      · left; simp [hp]
      · rcases ih hp with h | h
        · left; exact List.mem_cons_of_mem _ h
        · right; exact h

theorem lookupChild_mem (a : α) (t : Trie α β) (cs : List (α × Trie α β))
    (h : lookupChild a cs = some t) : (a, t) ∈ cs := by
  induction cs with
  | nil => simp [lookupChild] at h
  | cons p rest ih =>
    obtain ⟨b, t'⟩ := p
    by_cases hab : a = b
    · subst hab
      simp [lookupChild] at h
      simp [h]
    · simp [lookupChild, hab] at h
      exact List.mem_cons_of_mem _ (ih h)

theorem lookupChild_of_mem_nodup (a : α) (t : Trie α β) (cs : List (α × Trie α β))
    (hnd : (cs.map Prod.fst).Nodup) (hmem : (a, t) ∈ cs) :
    lookupChild a cs = some t := by
  induction cs with
  | nil => simp at hmem
  | cons p rest ih =>
    obtain ⟨b, t'⟩ := p
    rw [List.map_cons, List.nodup_cons] at hnd
    rcases List.mem_cons.mp hmem with h | h
    · obtain ⟨hb, ht⟩ := Prod.mk.injEq .. ▸ h
      subst hb; subst ht
      simp [lookupChild]
    · have hmemf : a ∈ rest.map Prod.fst := List.mem_map_of_mem Prod.fst h
      have hab : a ≠ b := fun hab => hnd.1 (hab ▸ hmemf)
      simp [lookupChild, hab, ih hnd.2 h]

/-! ### Insert/get interaction -/

theorem Trie.get_empty (k : List α) : (Trie.empty : Trie α β).get k = none := by
  cases k <;> simp [Trie.empty, Trie.get, lookupChild]

theorem Trie.get_insert_self (k : List α) (v : β) (t : Trie α β) :
    (t.insert k v).2.get k = some v := by
  induction k generalizing t with
  | nil =>
    obtain ⟨ov, cs⟩ := t
    simp [Trie.insert, Trie.get]
  | cons a s ih =>
    obtain ⟨ov, cs⟩ := t
    cases h : lookupChild a cs with
    | some t0 =>
      simp [Trie.insert, h, Trie.get, lookupChild_replace_self, ih]
    | none =>
      simp [Trie.insert, h, Trie.get, lookupChild_append, lookupChild_singleton, ih]

theorem Trie.insert_fst (k : List α) (v : β) (t : Trie α β) :
    (t.insert k v).1 = t.get k := by
  induction k generalizing t with
  | nil =>
    obtain ⟨ov, cs⟩ := t
    simp [Trie.insert, Trie.get]
  | cons a s ih =>
    obtain ⟨ov, cs⟩ := t
    cases h : lookupChild a cs with
    | some t0 => simp [Trie.insert, h, Trie.get, ih]
    | none => simp [Trie.insert, h, Trie.get]

theorem Trie.get_insert_ne (k k' : List α) (v : β) (t : Trie α β) :
    k ≠ k' → (t.insert k v).2.get k' = t.get k' := by
  induction k generalizing k' t with
  | nil =>
    intro hne
    obtain ⟨ov, cs⟩ := t
    cases k' with
    | nil => exact absurd rfl hne
    | cons b s' => simp [Trie.insert, Trie.get]
  | cons a s ih =>
    intro hne
    obtain ⟨ov, cs⟩ := t
    cases k' with
    | nil =>
      cases h : lookupChild a cs <;> simp [Trie.insert, h, Trie.get]
    | cons b s' =>
      by_cases hab : b = a
      · subst hab
        have hss : s ≠ s' := fun hss => hne (by rw [hss])
        cases h : lookupChild b cs with
        | some t0 =>
          simp [Trie.insert, h, Trie.get, lookupChild_replace_self, ih s' t0 hss]
        | none =>
          simp [Trie.insert, h, Trie.get, lookupChild_append, lookupChild_singleton]
          rw [ih s' _ hss, Trie.get_empty]
      · cases h : lookupChild a cs with
        | some t0 =>
          simp [Trie.insert, h, Trie.get, lookupChild_replace_ne a b hab]
        | none =>
          simp only [Trie.insert, h, Trie.get]
          rw [lookupChild_append]
          cases h2 : lookupChild b cs <;> simp [h2, lookupChild, hab]

/-! ### Well-formedness preservation -/

theorem TrieWF.empty : TrieWF (Trie.empty : Trie α β) :=
  TrieWF.mk none [] (by simp) (by simp)

theorem TrieWF.insert (k : List α) (v : β) (t : Trie α β) (h : TrieWF t) :
    TrieWF (t.insert k v).2 := by
  induction k generalizing t with
  | nil =>
    obtain ⟨ov, cs⟩ := t
    cases h with
    | mk _ _ hnd hwf =>
      simp only [Trie.insert]
      exact TrieWF.mk _ _ hnd hwf
  | cons a s ih =>
    obtain ⟨ov, cs⟩ := t
    cases h with
    | mk _ _ hnd hwf =>
      cases hl : lookupChild a cs with
      | some t0 =>
        simp only [Trie.insert, hl]
        refine TrieWF.mk _ _ ?_ ?_
        · rw [map_fst_replaceChild]; exact hnd
        · intro p hp
          rcases mem_replaceChild a _ cs p hp with hmem | heq
          · exact hwf p hmem
          · rw [heq]
            exact ih t0 (hwf (a, t0) (lookupChild_mem a t0 cs hl))
      | none =>
        simp only [Trie.insert, hl]
        refine TrieWF.mk _ _ ?_ ?_
        · rw [List.map_append]
          refine List.Nodup.append hnd (List.nodup_singleton a) ?_
          intro x hx hxa
          simp at hxa
          rw [hxa] at hx
          exact lookupChild_none_not_mem a cs hl hx
        · intro p hp
          rcases List.mem_append.mp hp with hmem | hmem
          · exact hwf p hmem
          · simp at hmem
            rw [hmem]
            exact ih _ TrieWF.empty

/-! ### Values of a subtree -/

theorem mem_valuesOf (v : β) (cs : List (α × Trie α β)) :
    v ∈ valuesOf cs ↔ ∃ p ∈ cs, v ∈ p.2.values := by
  induction cs with
  | nil => simp [valuesOf]
  | cons p rest ih =>
    obtain ⟨a, t⟩ := p
    simp only [valuesOf, List.mem_append, ih]
    constructor
    · rintro (hv | ⟨q, hq, hqv⟩)
      · exact ⟨(a, t), List.mem_cons_self _ _, hv⟩
      · exact ⟨q, List.mem_cons_of_mem _ hq, hqv⟩
    · rintro ⟨q, hq, hqv⟩
      rcases List.mem_cons.mp hq with rfl | hq
      · exact Or.inl hqv
      · exact Or.inr ⟨q, hq, hqv⟩

theorem Trie.mem_values (t : Trie α β) (h : TrieWF t) (v : β) :
    v ∈ t.values ↔ ∃ s, t.get s = some v := by
  induction h with
  | mk ov cs hnd hwf ih =>
    constructor
    · intro hv
      rw [Trie.values] at hv
      rcases List.mem_append.mp hv with hv | hv
      · refine ⟨[], ?_⟩
        cases ov <;> simp_all [Trie.get]
      · rcases (mem_valuesOf v cs).mp hv with ⟨p, hp, hpv⟩
        obtain ⟨a, t0⟩ := p
        rcases (ih (a, t0) hp).mp hpv with ⟨s, hs⟩
        refine ⟨a :: s, ?_⟩
        simp [Trie.get, lookupChild_of_mem_nodup a t0 cs hnd hp, hs]
    · rintro ⟨s, hs⟩
      cases s with
      | nil =>
        rw [Trie.get] at hs
        rw [Trie.values]
        simp [hs]
      | cons a s' =>
        rw [Trie.get] at hs
        cases hl : lookupChild a cs with
        | none => rw [hl] at hs; simp at hs
        | some t0 =>
          rw [hl] at hs
          have hmem := lookupChild_mem a t0 cs hl
          have hval : v ∈ t0.values := (ih (a, t0) hmem).mpr ⟨s', hs⟩
          rw [Trie.values]
          exact List.mem_append.mpr (Or.inr ((mem_valuesOf v cs).mpr ⟨(a, t0), hmem, hval⟩))

/-! ### Walking to a prefix -/

theorem Trie.get_append_walk (p s : List α) (t : Trie α β) :
    t.get (p ++ s) =
      match t.walk p with
      | some u => u.get s
      | none => none := by
  induction p generalizing t with
  | nil => simp [Trie.walk]
  | cons a p' ih =>
    obtain ⟨ov, cs⟩ := t
    cases hl : lookupChild a cs with
    | some t0 => simp [Trie.get, Trie.walk, hl, ih]
    | none => simp [Trie.get, Trie.walk, hl]

theorem Trie.walk_wf (p : List α) (t u : Trie α β) (h : TrieWF t)
    (hw : t.walk p = some u) : TrieWF u := by
  induction p generalizing t with
  | nil =>
    simp [Trie.walk] at hw
    rw [← hw]; exact h
  | cons a p' ih =>
    obtain ⟨ov, cs⟩ := t
    rw [Trie.walk] at hw
    cases hl : lookupChild a cs with
    | none => rw [hl] at hw; simp at hw
    | some t0 =>
      rw [hl] at hw
      cases h with
      | mk _ _ hnd hwf =>
        exact ih t0 (hwf (a, t0) (lookupChild_mem a t0 cs hl)) hw

theorem BTrieMap.getWithPrefix_mem (m : BTrieMap α β) (h : TrieWF m.root)
    (p : List α) (v : β) :
    v ∈ m.getWithPrefix p ↔ ∃ k, p <+: k ∧ m.get k = some v := by
  unfold BTrieMap.getWithPrefix BTrieMap.get
  cases hw : m.root.walk p with
  | none =>
    simp only [List.not_mem_nil, false_iff, not_exists, not_and]
    intro k hpk
    obtain ⟨s, rfl⟩ := hpk
    rw [Trie.get_append_walk, hw]
    simp
  | some u =>
    rw [Trie.mem_values u (Trie.walk_wf p m.root u h hw) v]
    constructor
    · rintro ⟨s, hs⟩
      exact ⟨p ++ s, ⟨s, rfl⟩, by rw [Trie.get_append_walk, hw]; exact hs⟩
    · rintro ⟨k, ⟨s, rfl⟩, hk⟩
      rw [Trie.get_append_walk, hw] at hk
      exact ⟨s, hk⟩

/-! ### Sequences of insertions -/

theorem BTrieMap.get_new (k : List α) : (BTrieMap.new : BTrieMap α β).get k = none :=
  Trie.get_empty k

theorem get_insertList (l : List (List α × β)) (m : BTrieMap α β) (k : List α) :
    (m.insertList l).get k =
      match lookupLast l k with
      | some v => some v
      | none => m.get k := by
  induction l generalizing m with
  | nil => simp [BTrieMap.insertList, lookupLast]
  | cons kv rest ih =>
    rw [show BTrieMap.insertList m (kv :: rest)
          = BTrieMap.insertList (m.insert kv.1 kv.2).2 rest from rfl]
    rw [ih, lookupLast]
    cases h : lookupLast rest k with
    | some v => simp
    | none =>
      simp only
      by_cases hk : kv.1 = k
      · subst hk
        simp [BTrieMap.insert, BTrieMap.get, Trie.get_insert_self]
      · simp only [hk, if_false]
        show (m.root.insert kv.1 kv.2).2.get k = m.root.get k
        exact Trie.get_insert_ne kv.1 k kv.2 m.root hk

theorem lookupLast_not_mem (l : List (List α × β)) (k : List α)
    (h : k ∉ l.map Prod.fst) : lookupLast l k = none := by
  induction l with
  | nil => rfl
  | cons kv rest ih =>
    rw [List.map_cons] at h
    have h1 : k ≠ kv.1 := fun he => h (by rw [he]; exact List.mem_cons_self _ _)
    have h2 : k ∉ rest.map Prod.fst := fun hm => h (List.mem_cons_of_mem _ hm)
    rw [lookupLast, ih h2, if_neg (fun hh => h1 hh.symm)]

theorem lookupLast_of_mem (l : List (List α × β)) (kv : List α × β)
    (hnd : (l.map Prod.fst).Nodup) (hmem : kv ∈ l) :
    lookupLast l kv.1 = some kv.2 := by
  induction l with
  | nil => simp at hmem
  | cons q rest ih =>
    rw [List.map_cons, List.nodup_cons] at hnd
    rcases List.mem_cons.mp hmem with rfl | hmem
    · rw [lookupLast, lookupLast_not_mem rest kv.1 hnd.1, if_pos rfl]
    · rw [lookupLast, ih hnd.2 hmem]

/-! ## Claim theorems for the BTrieMap -/

/-- C1: `insert(key, value)` returns the previous value stored under an
equal key (`none` when the key was absent), and after a second insert of
the same key only the newest value is retrievable via `get`. -/
theorem claim_C1_insert_overwrite (m : BTrieMap α β) (k : List α) (v v' : β) :
    (m.insert k v).1 = m.get k ∧
    ((m.insert k v).2.insert k v').1 = some v ∧
    ((m.insert k v).2.insert k v').2.get k = some v' := by
  refine ⟨Trie.insert_fst k v m.root, ?_, ?_⟩
  · show ((m.root.insert k v).2.insert k v').1 = some v
    rw [Trie.insert_fst]
    exact Trie.get_insert_self k v m.root
  · exact Trie.get_insert_self k v' _

/-- C2: inserting bindings with pairwise distinct keys into a fresh map,
`get` returns the inserted value for every inserted key and `none` for
every other key, and `contains` agrees with `get`. -/
theorem claim_C2_roundtrip (l : List (List α × β))
    (hnd : (l.map Prod.fst).Nodup) :
    (∀ kv ∈ l, ((BTrieMap.new : BTrieMap α β).insertList l).get kv.1 = some kv.2) ∧
    (∀ k, k ∉ l.map Prod.fst → ((BTrieMap.new : BTrieMap α β).insertList l).get k = none) ∧
    (∀ k, ((BTrieMap.new : BTrieMap α β).insertList l).contains k
            = (((BTrieMap.new : BTrieMap α β).insertList l).get k).isSome) := by
  refine ⟨?_, ?_, fun k => rfl⟩
  · intro kv hkv
    rw [get_insertList, lookupLast_of_mem l kv hnd hkv]
  · intro k hk
    rw [get_insertList, lookupLast_not_mem l k hk, BTrieMap.get_new]

/-- Witness for C2 at a concrete binding list with distinct keys. -/
theorem claim_C2_roundtrip_witness :
    (c2Bindings.map Prod.fst).Nodup ∧
    ((∀ kv ∈ c2Bindings,
        ((BTrieMap.new : BTrieMap Nat Nat).insertList c2Bindings).get kv.1 = some kv.2) ∧
      (∀ k, k ∉ c2Bindings.map Prod.fst →
        ((BTrieMap.new : BTrieMap Nat Nat).insertList c2Bindings).get k = none) ∧
      (∀ k, ((BTrieMap.new : BTrieMap Nat Nat).insertList c2Bindings).contains k
            = (((BTrieMap.new : BTrieMap Nat Nat).insertList c2Bindings).get k).isSome)) :=
  ⟨by decide, claim_C2_roundtrip c2Bindings (by decide)⟩

/-- C4: `get_with_prefix p` returns exactly the values whose stored key has
`p` as a prefix (a key equal to `p` included), and the empty sequence when
no stored key has `p` as a prefix. -/
theorem claim_C4_prefix_query (m : BTrieMap α β) (h : TrieWF m.root) (p : List α) :
    (∀ v, v ∈ m.getWithPrefix p ↔ ∃ k, p <+: k ∧ m.get k = some v) ∧
    ((∀ k, p <+: k → m.get k = none) → m.getWithPrefix p = []) := by
  refine ⟨fun v => BTrieMap.getWithPrefix_mem m h p v, ?_⟩
  intro hnone
  refine List.eq_nil_iff_forall_not_mem.mpr ?_
  intro v hv
  rcases (BTrieMap.getWithPrefix_mem m h p v).mp hv with ⟨k, hpk, hget⟩
  rw [hnone k hpk] at hget
  exact Option.noConfusion hget

/-- The root of the C4 example map is well-formed. -/
theorem c4Map_wf : TrieWF c4Map.root :=
  TrieWF.insert _ _ _ (TrieWF.insert _ _ _ (TrieWF.insert _ _ _
    (TrieWF.insert _ _ _ TrieWF.empty)))

/-- Witness for C4 at the example of the spec: prefix "ab" yields exactly
the values of "ab" and "abc" (here `[2, 3]`), prefix "z" yields nothing. -/
theorem claim_C4_prefix_query_witness :
    TrieWF c4Map.root ∧
    (∀ v, v ∈ c4Map.getWithPrefix ['a', 'b'] ↔
      ∃ k, ['a', 'b'] <+: k ∧ c4Map.get k = some v) ∧
    c4Map.getWithPrefix ['a', 'b'] = [2, 3] ∧
    c4Map.getWithPrefix ['z'] = [] :=
  ⟨c4Map_wf, (claim_C4_prefix_query c4Map c4Map_wf ['a', 'b']).1, by rfl, by rfl⟩

namespace XorLinkedList

variable {T : Type}

/-! ### Arena access lemmas -/

theorem getNode_zero (arena : List (Option (Node T))) : getNode arena 0 = none := rfl

theorem getNode_lt (arena : List (Option (Node T))) (a : Nat) (n : Node T)
    (h : getNode arena a = some n) : a - 1 < arena.length := by
  by_contra hlt
  push_neg at hlt
  unfold getNode at h
  by_cases h0 : a = 0
  · simp [h0] at h
  · rw [if_neg h0, List.getD_eq_getElem?_getD, List.getElem?_eq_none hlt] at h
    simp at h

theorem getNode_setNode_ne (arena : List (Option (Node T))) (a b : Nat)
    (n : Option (Node T)) (h0 : a ≠ 0) (hb : b ≠ 0) (hab : b ≠ a) :
    getNode (setNode arena a n) b = getNode arena b := by
  unfold getNode setNode
  rw [if_neg hb, if_neg hb, List.getD_eq_getElem?_getD, List.getD_eq_getElem?_getD,
    List.getElem?_set_ne (by omega : a - 1 ≠ b - 1)]

theorem getNode_setNode_self (arena : List (Option (Node T))) (a : Nat)
    (n0 : Node T) (n : Option (Node T)) (h : getNode arena a = some n0) :
    getNode (setNode arena a n) a = n := by
  have hlt := getNode_lt arena a n0 h
  have h0 : a ≠ 0 := by
    intro h0; rw [h0] at h; exact Option.noConfusion h
  unfold getNode setNode
  rw [if_neg h0, List.getD_eq_getElem?_getD,
    List.getElem?_set_self (by simpa using hlt)]
  rfl

theorem getNode_append (arena ys : List (Option (Node T))) (a : Nat) (n : Node T)
    (h : getNode arena a = some n) : getNode (arena ++ ys) a = some n := by
  have hlt := getNode_lt arena a n h
  have h0 : a ≠ 0 := by
    intro h0; rw [h0] at h; exact Option.noConfusion h
  unfold getNode at h ⊢
  rw [if_neg h0] at h ⊢
  rw [List.getD_eq_getElem?_getD, List.getElem?_append_left hlt,
    ← List.getD_eq_getElem?_getD]
  exact h

theorem getNode_alloc (arena : List (Option (Node T))) (x : Option (Node T)) :
    getNode (arena ++ [x]) (arena.length + 1) = x := by
  unfold getNode
  rw [if_neg (by omega), List.getD_eq_getElem?_getD]
  simp [List.getElem?_concat_length]

theorem length_setNode (arena : List (Option (Node T))) (a : Nat)
    (n : Option (Node T)) : (setNode arena a n).length = arena.length :=
  List.length_set arena (a - 1) n

theorem length_xorLink (arena : List (Option (Node T))) (a x : Nat) :
    (xorLink arena a x).length = arena.length := by
  unfold xorLink
  by_cases hx : x = 0
  · simp [hx]
  · rw [if_neg hx]
    cases getNode arena a <;> simp [setNode]

theorem getNode_xorLink_ne (arena : List (Option (Node T))) (a b x : Nat)
    (hb : b ≠ 0) (hab : b ≠ a) :
    getNode (xorLink arena a x) b = getNode arena b := by
  unfold xorLink
  by_cases hx : x = 0
  · simp [hx]
  · rw [if_neg hx]
    cases h : getNode arena a with
    | none => rfl
    | some n =>
      have h0 : a ≠ 0 := by
        intro h0; rw [h0] at h; exact Option.noConfusion (getNode_zero arena ▸ h)
      exact getNode_setNode_ne arena a b _ h0 hb hab

theorem getNode_xorLink_self (arena : List (Option (Node T))) (a x : Nat)
    (n : Node T) (h : getNode arena a = some n) :
    getNode (xorLink arena a x) a = some ⟨n.elem, n.link ^^^ x⟩ := by
  unfold xorLink
  by_cases hx : x = 0
  · rw [hx, if_pos rfl, h, Nat.xor_zero]
  · rw [if_neg hx, h]
    exact getNode_setNode_self arena a n _ h

/-! ### Chain lemmas -/

theorem chain_nil (arena : List (Option (Node T))) (prev nxt : Nat) :
    chain arena prev [] ([] : List T) nxt := trivial

theorem chain_length (arena : List (Option (Node T))) (prev : Nat)
    (addrs : List Nat) (xs : List T) (nxt : Nat)
    (h : chain arena prev addrs xs nxt) : addrs.length = xs.length := by
  induction addrs generalizing prev xs with
  | nil =>
    cases xs with
    | nil => rfl
    | cons x xs => exact absurd h (by simp [chain])
  | cons a rest ih =>
    cases xs with
    | nil => exact absurd h (by simp [chain])
    | cons x xs =>
      obtain ⟨-, -, hc⟩ := h
      simp [ih a xs hc]

theorem chain_mem (arena : List (Option (Node T))) (prev : Nat)
    (addrs : List Nat) (xs : List T) (nxt : Nat)
    (h : chain arena prev addrs xs nxt) (a : Nat) (ha : a ∈ addrs) :
    a ≠ 0 ∧ ∃ n : Node T, getNode arena a = some n := by
  induction addrs generalizing prev xs with
  | nil => simp at ha
  | cons b rest ih =>
    cases xs with
    | nil => exact absurd h (by simp [chain])
    | cons x xs =>
      obtain ⟨hb, hn, hc⟩ := h
      rcases List.mem_cons.mp ha with rfl | ha
      · exact ⟨hb, ⟨_, hn⟩⟩
      · exact ih b xs hc ha

theorem chain_frame (arena arena' : List (Option (Node T))) (prev : Nat)
    (addrs : List Nat) (xs : List T) (nxt : Nat)
    (h : chain arena prev addrs xs nxt)
    (heq : ∀ a ∈ addrs, getNode arena' a = getNode arena a) :
    chain arena' prev addrs xs nxt := by
  induction addrs generalizing prev xs with
  | nil =>
    cases xs with
    | nil => trivial
    | cons x xs => exact absurd h (by simp [chain])
  | cons a rest ih =>
    cases xs with
    | nil => exact absurd h (by simp [chain])
    | cons x xs =>
      obtain ⟨ha, hn, hc⟩ := h
      exact ⟨ha, by rw [heq a (List.mem_cons_self _ _)]; exact hn,
        ih a xs hc (fun b hb => heq b (List.mem_cons_of_mem _ hb))⟩

theorem chain_append (arena : List (Option (Node T))) (prev nxt : Nat)
    (as bs : List Nat) (xs ys : List T) (hlen : as.length = xs.length) :
    chain arena prev (as ++ bs) (xs ++ ys) nxt ↔
      chain arena prev as xs (bs.headD nxt) ∧
      chain arena (as.getLastD prev) bs ys nxt := by
  induction as generalizing prev xs with
  | nil =>
    cases xs with
    | nil => simp [chain_nil]
    | cons x xs => simp at hlen
  | cons a rest ih =>
    cases xs with
    | nil => simp at hlen
    | cons x xs =>
      have hlen' : rest.length = xs.length := by simpa using hlen
      simp only [List.cons_append]
      constructor
      · rintro ⟨ha, hn, hc⟩
        rw [ih a xs hlen'] at hc
        refine ⟨⟨ha, ?_, hc.1⟩, ?_⟩
        · cases rest <;> simpa using hn
        · rw [List.getLastD_cons]
          exact hc.2
      · rintro ⟨⟨ha, hn, hc1⟩, hc2⟩
        refine ⟨ha, ?_, ?_⟩
        · cases rest <;> simpa using hn
        · rw [ih a xs hlen']
          rw [List.getLastD_cons] at hc2
          exact ⟨hc1, hc2⟩

theorem getLastD_rev {γ : Type} (l : List γ) (d : γ) :
    l.reverse.getLastD d = l.headD d := by
  rw [List.getLastD_eq_getLast?, List.getLast?_reverse, List.headD_eq_head?]

theorem headD_rev {γ : Type} (l : List γ) (d : γ) :
    l.reverse.headD d = l.getLastD d := by
  rw [← List.reverse_reverse l, getLastD_rev, List.reverse_reverse]

theorem chain_reverse (arena : List (Option (Node T))) (prev nxt : Nat)
    (addrs : List Nat) (xs : List T) (h : chain arena prev addrs xs nxt) :
    chain arena nxt addrs.reverse xs.reverse prev := by
  induction addrs generalizing prev xs with
  | nil =>
    cases xs with
    | nil => trivial
    | cons x xs => exact absurd h (by simp [chain])
  | cons a rest ih =>
    cases xs with
    | nil => exact absurd h (by simp [chain])
    | cons x xs =>
      obtain ⟨ha, hn, hc⟩ := h
      rw [List.reverse_cons, List.reverse_cons,
        chain_append arena nxt prev rest.reverse [a] xs.reverse [x]
          (by simp [chain_length arena a rest xs nxt hc])]
      refine ⟨by simpa using ih a xs hc, ha, ?_, trivial⟩
      rw [getLastD_rev, Nat.xor_comm]
      exact hn

theorem headD_append_left {γ : Type} (l l2 : List γ) (d : γ) (h : l ≠ []) :
    (l ++ l2).headD d = l.headD d := by
  cases l with
  | nil => exact absurd rfl h
  | cons a rest => rfl

theorem chain_addr_le (arena : List (Option (Node T))) (prev : Nat)
    (addrs : List Nat) (xs : List T) (nxt : Nat)
    (h : chain arena prev addrs xs nxt) (b : Nat) (hb : b ∈ addrs) :
    b ≠ 0 ∧ b ≤ arena.length := by
  obtain ⟨hb0, n, hn⟩ := chain_mem arena prev addrs xs nxt h b hb
  have := getNode_lt arena b n hn
  exact ⟨hb0, by omega⟩

theorem chain_relink_last (arena : List (Option (Node T))) (prev : Nat)
    (addrs : List Nat) (xs : List T) (n1 n2 : Nat) (hnd : addrs.Nodup)
    (h : chain arena prev addrs xs n1) (hne : addrs ≠ []) :
    chain (xorLink arena (addrs.getLastD 0) (n1 ^^^ n2)) prev addrs xs n2 := by
  rcases List.eq_nil_or_concat addrs with rfl | ⟨init, t, haddrs⟩
  · exact absurd rfl hne
  rw [List.concat_eq_append] at haddrs
  subst haddrs
  have hlen := chain_length arena prev _ xs n1 h
  rcases List.eq_nil_or_concat xs with rfl | ⟨ys, y, hxs⟩
  · simp at hlen
  rw [List.concat_eq_append] at hxs
  subst hxs
  have hlen2 : init.length = ys.length := by simpa using hlen
  rw [chain_append arena prev n1 init [t] ys [y] hlen2] at h
  obtain ⟨hci, ht0, hnt, -⟩ := h
  have htD : (init ++ [t]).getLastD 0 = t := List.getLastD_concat 0 t init
  have htni : t ∉ init := by
    intro hmem
    exact List.disjoint_of_nodup_append hnd hmem (List.mem_singleton_self t)
  rw [htD, chain_append _ prev n2 init [t] ys [y] hlen2]
  constructor
  · refine chain_frame arena _ prev init ys _ (by simpa using hci) ?_
    intro b hb
    have hb0 := (chain_mem arena prev init ys _ (by simpa using hci) b hb).1
    exact getNode_xorLink_ne arena t b _ hb0 (fun hbt => htni (hbt ▸ hb))
  · refine ⟨ht0, ?_, trivial⟩
    rw [getNode_xorLink_self arena t _ _ hnt]
    have : init.getLastD prev ^^^ [].headD n1 ^^^ (n1 ^^^ n2)
        = init.getLastD prev ^^^ [].headD n2 := by
      show init.getLastD prev ^^^ n1 ^^^ (n1 ^^^ n2) = init.getLastD prev ^^^ n2
      rw [Nat.xor_assoc, ← Nat.xor_assoc n1 n1 n2, Nat.xor_self, Nat.zero_xor]
    rw [this]

theorem chain_relink_head (arena : List (Option (Node T))) (p1 p2 : Nat)
    (addrs : List Nat) (xs : List T) (nxt : Nat) (hnd : addrs.Nodup)
    (h : chain arena p1 addrs xs nxt) (hne : addrs ≠ []) :
    chain (xorLink arena (addrs.headD 0) (p1 ^^^ p2)) p2 addrs xs nxt := by
  have hrev := chain_reverse arena p1 nxt addrs xs h
  have hlast := chain_relink_last arena nxt addrs.reverse xs.reverse p1 p2
    (List.nodup_reverse.mpr hnd) hrev (by simpa using hne)
  have hback := chain_reverse _ nxt p2 addrs.reverse xs.reverse hlast
  rw [List.reverse_reverse, List.reverse_reverse, getLastD_rev] at hback
  exact hback

/-! ### The walk reads back the chain -/

theorem walkList_chain (arena : List (Option (Node T))) (prev : Nat)
    (addrs : List Nat) (xs : List T) (nxt : Nat)
    (h : chain arena prev addrs xs nxt) :
    walkList arena addrs.length prev (addrs.headD nxt) = xs := by
  induction addrs generalizing prev xs with
  | nil =>
    cases xs with
    | nil => rfl
    | cons x xs => exact absurd h (by simp [chain])
  | cons a rest ih =>
    cases xs with
    | nil => exact absurd h (by simp [chain])
    | cons x xs =>
      obtain ⟨ha, hn, hc⟩ := h
      simp only [List.headD_cons, List.length_cons]
      rw [walkList, hn]
      have hx : (prev ^^^ rest.headD nxt) ^^^ prev = rest.headD nxt := by
        rw [Nat.xor_comm prev _, Nat.xor_assoc, Nat.xor_self, Nat.xor_zero]
      simp only [hx]
      rw [ih a xs hc]

theorem walkSteps_chain (arena : List (Option (Node T))) (prev : Nat)
    (addrs : List Nat) (xs : List T) (nxt : Nat)
    (h : chain arena prev addrs xs nxt) :
    walkSteps arena addrs.length prev (addrs.headD nxt) = (addrs.getLastD prev, nxt) := by
  induction addrs generalizing prev xs with
  | nil =>
    cases xs with
    | nil => rfl
    | cons x xs => exact absurd h (by simp [chain])
  | cons a rest ih =>
    cases xs with
    | nil => exact absurd h (by simp [chain])
    | cons x xs =>
      obtain ⟨ha, hn, hc⟩ := h
      simp only [List.headD_cons, List.length_cons]
      rw [walkSteps, hn]
      have hx : (prev ^^^ rest.headD nxt) ^^^ prev = rest.headD nxt := by
        rw [Nat.xor_comm prev _, Nat.xor_assoc, Nat.xor_self, Nat.xor_zero]
      simp only [hx]
      rw [ih a xs hc, List.getLastD_cons]

theorem toList_models (l : XorLinkedList T) (xs : List T) (h : Models l xs) :
    toList l = xs := by
  obtain ⟨addrs, hnd, hc, hh, ht, hl⟩ := h
  unfold toList
  rw [hl, hh]
  exact walkList_chain l.arena 0 addrs xs 0 hc

/-! ### Models: the operations against the abstract sequence -/

theorem models_empty : Models (empty : XorLinkedList T) [] :=
  ⟨[], List.nodup_nil, trivial, rfl, rfl, rfl⟩

theorem models_revView (l : XorLinkedList T) (xs : List T) (h : Models l xs) :
    Models (revView l) xs.reverse := by
  obtain ⟨addrs, hnd, hc, hh, ht, hl⟩ := h
  refine ⟨addrs.reverse, List.nodup_reverse.mpr hnd,
    chain_reverse l.arena 0 0 addrs xs hc, ?_, ?_, by simpa using hl⟩
  · rw [headD_rev]; exact ht
  · rw [getLastD_rev]; exact hh

theorem models_push_back (l : XorLinkedList T) (xs : List T) (h : Models l xs)
    (v : T) : Models (push_back l v) (xs ++ [v]) := by
  obtain ⟨addrs, hnd, hc, hh, ht, hl⟩ := h
  have hlen := chain_length l.arena 0 addrs xs 0 hc
  rcases List.eq_nil_or_concat addrs with rfl | ⟨init, t, haddrs⟩
  · have hxs : xs = [] := by
      cases xs with
      | nil => rfl
      | cons _ _ => simp at hlen
    subst hxs
    have ht0 : l.tail = 0 := by simpa using ht
    unfold push_back
    rw [if_pos ht0]
    refine ⟨[l.arena.length + 1], by simp, ?_, by simp, by simp, by simpa using hl⟩
    refine ⟨by omega, ?_, trivial⟩
    rw [getNode_alloc]
    simp
  · rw [List.concat_eq_append] at haddrs
    subst haddrs
    rcases List.eq_nil_or_concat xs with rfl | ⟨ys, y, hxs⟩
    · simp at hlen
    rw [List.concat_eq_append] at hxs
    subst hxs
    have hlen2 : init.length = ys.length := by simpa using hlen
    have htD : (init ++ [t]).getLastD 0 = t := List.getLastD_concat 0 t init
    have htail : l.tail = t := by rw [ht, htD]
    have hbound := chain_addr_le l.arena 0 (init ++ [t]) (ys ++ [y]) 0 hc
    have ht0 : t ≠ 0 := (hbound t (by simp)).1
    unfold push_back
    rw [if_neg (by rw [htail]; exact ht0)]
    rw [htail]
    have hfresh : l.arena.length + 1 ∉ init ++ [t] := by
      intro hmem
      have := (hbound _ hmem).2
      omega
    refine ⟨(init ++ [t]) ++ [l.arena.length + 1], ?_, ?_, ?_, ?_, ?_⟩
    · refine List.Nodup.append hnd (List.nodup_singleton _) ?_
      intro b hb hb1
      rw [List.mem_singleton.mp hb1] at hb
      exact hfresh hb
    · rw [chain_append _ 0 0 (init ++ [t]) [l.arena.length + 1] (ys ++ [y]) [v]
        (by simp [hlen2]), htD]
      have hrelink := chain_relink_last l.arena 0 (init ++ [t]) (ys ++ [y]) 0
        (l.arena.length + 1) hnd hc (by simp)
      rw [Nat.zero_xor, htD] at hrelink
      constructor
      · simp only [List.headD_cons]
        refine chain_frame _ _ 0 (init ++ [t]) (ys ++ [y]) _ hrelink ?_
        intro b hb
        obtain ⟨hb0, n, hn⟩ := chain_mem _ 0 (init ++ [t]) (ys ++ [y]) _ hrelink b hb
        rw [getNode_append _ [some ⟨v, t⟩] b n hn, hn]
      · refine ⟨by omega, ?_, trivial⟩
        have halloc : getNode (xorLink l.arena t (l.arena.length + 1) ++ [some ⟨v, t⟩])
            ((xorLink l.arena t (l.arena.length + 1)).length + 1) = some ⟨v, t⟩ :=
          getNode_alloc _ _
        rw [length_xorLink] at halloc
        rw [halloc]
        simp
    · rw [headD_append_left _ _ _ (by simp)]
      exact hh
    · rw [List.getLastD_concat]
    · simp only [List.length_append, List.length_singleton]
      rw [hl]
      simp

theorem push_front_eq_rev (l : XorLinkedList T) (v : T) :
    push_front l v = revView (push_back (revView l) v) := by
  unfold push_front push_back revView
  by_cases h : l.head = 0 <;> simp [h]

theorem models_push_front (l : XorLinkedList T) (xs : List T) (h : Models l xs)
    (v : T) : Models (push_front l v) (v :: xs) := by
  rw [push_front_eq_rev]
  have h1 := models_push_back (revView l) xs.reverse (models_revView l xs h) v
  have h2 := models_revView _ _ h1
  simpa using h2

theorem pop_front_nil (l : XorLinkedList T) (h : Models l []) :
    pop_front l = (none, l) := by
  obtain ⟨addrs, hnd, hc, hh, ht, hl⟩ := h
  have haddrs : addrs = [] := by
    cases addrs with
    | nil => rfl
    | cons a rest => exact absurd hc (by simp [chain])
  subst haddrs
  have hh0 : l.head = 0 := by simpa using hh
  unfold pop_front
  rw [hh0, getNode_zero]

theorem pop_front_eval_some (l : XorLinkedList T) (n : Node T)
    (hm : getNode l.arena l.head = some n) :
    pop_front l = (some n.elem,
      if n.link = 0 then ⟨setNode l.arena l.head none, 0, 0, l.len - 1⟩
      else ⟨xorLink (setNode l.arena l.head none) n.link l.head,
            n.link, l.tail, l.len - 1⟩) := by
  unfold pop_front
  rw [hm]
  by_cases h0 : n.link = 0 <;> simp [h0]

theorem pop_front_cons (l : XorLinkedList T) (x : T) (xs : List T)
    (h : Models l (x :: xs)) :
    (pop_front l).1 = some x ∧ Models (pop_front l).2 xs := by
  obtain ⟨addrs, hnd, hc, hh, ht, hl⟩ := h
  cases addrs with
  | nil => exact absurd hc (by simp [chain])
  | cons b rest =>
    obtain ⟨hb0, hnb, hc2⟩ := hc
    have hhead : l.head = b := by simpa using hh
    subst hhead
    have hlen := chain_length l.arena l.head rest xs 0 hc2
    cases rest with
    | nil =>
      have hxs : xs = [] := by
        cases xs with
        | nil => rfl
        | cons _ _ => simp at hlen
      subst hxs
      have hnb' : getNode l.arena l.head = some ⟨x, 0⟩ := by simpa using hnb
      rw [pop_front_eval_some l ⟨x, 0⟩ hnb']
      constructor
      · rfl
      · refine ⟨[], by simp, trivial, ?_, ?_, ?_⟩ <;> simp [hl]
    | cons c rest' =>
      cases xs with
      | nil => simp at hlen
      | cons x2 xs' =>
        have hc0 : c ≠ 0 := (chain_mem _ _ _ _ _ hc2 c (List.mem_cons_self _ _)).1
        have hnb' : getNode l.arena l.head = some ⟨x, c⟩ := by
          simpa [Nat.zero_xor] using hnb
        rw [pop_front_eval_some l ⟨x, c⟩ hnb']
        rw [if_neg hc0]
        have hbnotin : l.head ∉ c :: rest' := (List.nodup_cons.mp hnd).1
        refine ⟨rfl, c :: rest', (List.nodup_cons.mp hnd).2, ?_, rfl, ?_, ?_⟩
        · have hstep1 : chain (setNode l.arena l.head none) l.head (c :: rest')
              (x2 :: xs') 0 := by
            refine chain_frame l.arena _ l.head (c :: rest') (x2 :: xs') 0 hc2 ?_
            intro e he
            have he0 := (chain_mem _ _ _ _ _ hc2 e he).1
            exact getNode_setNode_ne l.arena l.head e none hb0 he0
              (fun heb => hbnotin (heb ▸ he))
          have hre := chain_relink_head _ l.head 0 (c :: rest') (x2 :: xs') 0
            (List.nodup_cons.mp hnd).2 hstep1 (by simp)
          rw [Nat.xor_zero] at hre
          simpa using hre
        · rw [ht]
          simp [List.getLastD_cons]
        · rw [hl]
          simp

theorem pop_back_eq_rev (l : XorLinkedList T) :
    pop_back l = ((pop_front (revView l)).1, revView (pop_front (revView l)).2) := by
  unfold pop_back pop_front revView
  simp only
  cases getNode l.arena l.tail with
  | none => rfl
  | some n => by_cases h0 : n.link = 0 <;> simp [h0]

theorem pop_back_nil (l : XorLinkedList T) (h : Models l []) :
    pop_back l = (none, l) := by
  rw [pop_back_eq_rev, pop_front_nil _ (by simpa using models_revView l [] h)]
  rfl

theorem pop_back_concat (l : XorLinkedList T) (xs : List T) (x : T)
    (h : Models l (xs ++ [x])) :
    (pop_back l).1 = some x ∧ Models (pop_back l).2 xs := by
  have hrev : Models (revView l) (x :: xs.reverse) := by
    simpa using models_revView _ _ h
  obtain ⟨h1, h2⟩ := pop_front_cons (revView l) x xs.reverse hrev
  rw [pop_back_eq_rev]
  refine ⟨h1, ?_⟩
  simpa using models_revView _ _ h2

/-! ### Building from a sequence -/

theorem models_extend (vs : List T) : ∀ (l : XorLinkedList T) (xs : List T),
    Models l xs → Models (extend l vs) (xs ++ vs) := by
  induction vs with
  | nil =>
    intro l xs h
    simpa [extend] using h
  | cons v vs ih =>
    intro l xs h
    have := ih (push_back l v) (xs ++ [v]) (models_push_back l xs h v)
    simpa [extend, List.foldl_cons] using this

theorem models_fromList (vs : List T) : Models (fromList vs) vs := by
  simpa using models_extend vs empty [] models_empty

theorem len_models (l : XorLinkedList T) (xs : List T) (h : Models l xs) :
    l.len = xs.length := by
  obtain ⟨addrs, -, hc, -, -, hl⟩ := h
  rw [hl, chain_length l.arena 0 addrs xs 0 hc]

/-! ### Draining from either end -/

theorem drainFront_models (n : Nat) : ∀ (l : XorLinkedList T) (xs : List T),
    Models l xs → xs.length ≤ n → drainFront l n = xs := by
  induction n with
  | zero =>
    intro l xs h hle
    have : xs = [] := List.eq_nil_of_length_eq_zero (by omega)
    subst this
    rfl
  | succ n ih =>
    intro l xs h hle
    cases xs with
    | nil =>
      rw [drainFront, pop_front_nil l h]
    | cons x xs' =>
      obtain ⟨h1, h2⟩ := pop_front_cons l x xs' h
      have hp : pop_front l = (some x, (pop_front l).2) := by
        rw [← h1]
      rw [drainFront, hp]
      simp only
      rw [ih (pop_front l).2 xs' h2 (by simpa using hle)]

theorem drainBack_models (n : Nat) : ∀ (l : XorLinkedList T) (xs : List T),
    Models l xs → xs.length ≤ n → drainBack l n = xs.reverse := by
  induction n with
  | zero =>
    intro l xs h hle
    have : xs = [] := List.eq_nil_of_length_eq_zero (by omega)
    subst this
    rfl
  | succ n ih =>
    intro l xs h hle
    rcases List.eq_nil_or_concat xs with rfl | ⟨ys, y, hxs⟩
    · rw [drainBack, pop_back_nil l h]
      rfl
    · rw [List.concat_eq_append] at hxs
      subst hxs
      obtain ⟨h1, h2⟩ := pop_back_concat l ys y h
      have hp : pop_back l = (some y, (pop_back l).2) := by
        rw [← h1]
      rw [drainBack, hp]
      simp only
      rw [ih (pop_back l).2 ys h2 (by simp at hle ⊢; omega)]
      simp

/-! ### split_off against the abstract sequence -/

theorem split_off_le (l : XorLinkedList T) (xs : List T) (h : Models l xs) (n : Nat)
    (hn : n ≤ xs.length) :
    ∃ p, split_off l n = some p ∧ Models p.1 (xs.take n) ∧ Models p.2 (xs.drop n) := by
  obtain ⟨addrs, hnd, hc, hh, ht, hl⟩ := h
  have hlenx := chain_length l.arena 0 addrs xs 0 hc
  have hlen : l.len = xs.length := by rw [hl, hlenx]
  have htk_len : (addrs.take n).length = n := by
    rw [List.length_take]; omega
  have htk_lenx : (addrs.take n).length = (xs.take n).length := by
    rw [List.length_take, List.length_take, hlenx]
  have hc' : chain l.arena 0 (addrs.take n ++ addrs.drop n)
      (xs.take n ++ xs.drop n) 0 := by
    rw [List.take_append_drop, List.take_append_drop]; exact hc
  rw [chain_append l.arena 0 0 _ _ _ _ htk_lenx] at hc'
  obtain ⟨hc1, hc2⟩ := hc'
  have hws := walkSteps_chain l.arena 0 (addrs.take n) (xs.take n)
    ((addrs.drop n).headD 0) hc1
  have hhd : (addrs.take n).headD ((addrs.drop n).headD 0) = addrs.headD 0 := by
    cases n with
    | zero => simp
    | succ m =>
      cases addrs with
      | nil => simp
      | cons a rest => simp
  rw [htk_len, hhd, ← hh] at hws
  have hwl := walkList_chain l.arena ((addrs.take n).getLastD 0) (addrs.drop n)
    (xs.drop n) 0 hc2
  have hdrop_len : (addrs.drop n).length = xs.length - n := by
    rw [List.length_drop, hlenx]
  simp only [split_off]
  rw [if_neg (by omega), hws]
  refine ⟨_, rfl, ?_, ?_⟩
  · by_cases hn0 : n = 0
    · subst hn0
      rw [if_pos rfl]
      exact ⟨[], by simp, trivial, rfl, rfl, rfl⟩
    · rw [if_neg hn0]
      refine ⟨addrs.take n, hnd.sublist (List.take_sublist n addrs), ?_, ?_, rfl, ?_⟩
      · have hne : addrs.take n ≠ [] := by
          intro hnil
          rw [hnil] at htk_len
          exact hn0 htk_len.symm
        have := chain_relink_last l.arena 0 (addrs.take n) (xs.take n)
          ((addrs.drop n).headD 0) 0 (hnd.sublist (List.take_sublist n addrs)) hc1 hne
        rwa [Nat.xor_zero] at this
      · rw [hh]
        cases addrs with
        | nil => simp at hlenx; omega
        | cons a rest =>
          cases n with
          | zero => exact absurd rfl hn0
          | succ m => simp
      · exact htk_len.symm
  · have hfuel : l.len - n = (addrs.drop n).length := by omega
    rw [hfuel, hwl]
    exact models_fromList (xs.drop n)

theorem split_off_len_eq (l : XorLinkedList T) (xs : List T) (h : Models l xs) :
    split_off l xs.length = some (l, empty) := by
  obtain ⟨addrs, hnd, hc, hh, ht, hl⟩ := h
  have hlenx := chain_length l.arena 0 addrs xs 0 hc
  have hws := walkSteps_chain l.arena 0 addrs xs 0 hc
  rw [← hh] at hws
  have hlen : l.len = xs.length := by rw [hl, hlenx]
  simp only [split_off]
  rw [if_neg (by omega)]
  rw [show xs.length = addrs.length from hlenx.symm]
  rw [hws]
  have hfuel : l.len - addrs.length = 0 := by omega
  rw [hfuel]
  by_cases hn0 : addrs.length = 0
  · have haddrs : addrs = [] := List.eq_nil_of_length_eq_zero hn0
    subst haddrs
    rw [if_pos hn0]
    obtain ⟨ar, hd, tl, ln⟩ := l
    simp only at hh ht hl ⊢
    simp at hh ht hl
    subst hh; subst ht; subst hl
    rfl
  · rw [if_neg hn0]
    show some (⟨xorLink l.arena (addrs.getLastD 0) 0, l.head, addrs.getLastD 0,
      addrs.length⟩, fromList (walkList l.arena 0 (addrs.getLastD 0) 0)) = some (l, empty)
    have hx0 : xorLink l.arena (addrs.getLastD 0) 0 = l.arena := rfl
    rw [hx0, ← ht, ← hl]
    rfl

/-! ## Claim theorems for the XorLinkedList -/

/-- C3: `split_off(at)` with `at ≤ len` returns the suffix from index `at`
as a new list, keeps the first `at` elements, at `at = len` returns the
original unchanged plus an empty list, and with `at > len` signals failure
(`none`) with the caller's list untouched. -/
theorem claim_C3_split_off (l : XorLinkedList T) (xs : List T) (h : Models l xs)
    (n : Nat) :
    (n ≤ xs.length →
      ∃ p, split_off l n = some p ∧ Models p.1 (xs.take n) ∧ Models p.2 (xs.drop n)) ∧
    (xs.length < n → split_off l n = none) ∧
    split_off l xs.length = some (l, empty) := by
  refine ⟨fun hn => split_off_le l xs h n hn, fun hn => ?_, split_off_len_eq l xs h⟩
  simp only [split_off]
  rw [if_pos (by rw [len_models l xs h]; omega)]

/-- Witness for C3 at the spec's example: `[1,2,3,4]` split at 2. -/
theorem claim_C3_split_off_witness :
    Models (fromList [1, 2, 3, 4] : XorLinkedList Nat) [1, 2, 3, 4] ∧
    ((2 ≤ 4 → ∃ p, split_off (fromList [1, 2, 3, 4] : XorLinkedList Nat) 2 = some p ∧
        Models p.1 [1, 2] ∧ Models p.2 [3, 4]) ∧
      (4 < 2 → split_off (fromList [1, 2, 3, 4] : XorLinkedList Nat) 2 = none) ∧
      split_off (fromList [1, 2, 3, 4] : XorLinkedList Nat) 4
        = some (fromList [1, 2, 3, 4], empty)) :=
  ⟨models_fromList _,
    claim_C3_split_off (fromList [1, 2, 3, 4]) [1, 2, 3, 4] (models_fromList _) 2⟩

/-- C6: pushing a sequence via `push_back` then draining via `pop_front`
yields the sequence in insertion order, draining via `pop_back` yields it
reversed, and either pop on the empty list returns `none`. -/
theorem claim_C6_fifo_lifo (vs : List T) :
    drainFront (fromList vs) (fromList vs).len = vs ∧
    drainBack (fromList vs) (fromList vs).len = vs.reverse ∧
    (pop_front (empty : XorLinkedList T)).1 = none ∧
    (pop_back (empty : XorLinkedList T)).1 = none := by
  have hm := models_fromList (T := T) vs
  have hlen := len_models _ _ hm
  refine ⟨drainFront_models _ _ _ hm (by rw [hlen]),
    drainBack_models _ _ _ hm (by rw [hlen]), ?_, ?_⟩
  · rw [pop_front_nil _ models_empty]
  · rw [pop_back_nil _ models_empty]

/-- C7: `append` leaves `self` holding its former elements followed by
`other`'s former elements, and leaves `other` empty with length 0. -/
theorem claim_C7_append (l other : XorLinkedList T) (xs ys : List T)
    (h1 : Models l xs) (h2 : Models other ys) :
    Models (append l other).1 (xs ++ ys) ∧ Models (append l other).2 [] ∧
    (append l other).2.len = 0 := by
  unfold append
  rw [toList_models other ys h2]
  exact ⟨models_extend ys l xs h1, models_empty, rfl⟩

/-- Witness for C7 at the spec's example: `[3,4]` appended onto `[1,2]`. -/
theorem claim_C7_append_witness :
    Models (fromList [1, 2] : XorLinkedList Nat) [1, 2] ∧
    Models (fromList [3, 4] : XorLinkedList Nat) [3, 4] ∧
    (Models (append (fromList [1, 2] : XorLinkedList Nat) (fromList [3, 4])).1
        [1, 2, 3, 4] ∧
      Models (append (fromList [1, 2] : XorLinkedList Nat) (fromList [3, 4])).2 [] ∧
      (append (fromList [1, 2] : XorLinkedList Nat) (fromList [3, 4])).2.len = 0) :=
  ⟨models_fromList _, models_fromList _, by
    simpa using claim_C7_append (fromList [1, 2]) (fromList [3, 4]) [1, 2] [3, 4]
      (models_fromList _) (models_fromList _)⟩

/-- C8: every public operation preserves the XOR-link structural invariant
(`Inv`, the existence of a duplicate-free XOR-consistent address chain
matching head, tail and length) as a pre/postcondition. -/
theorem claim_C8_invariant (l l2 : XorLinkedList T) (h : Inv l) (h2 : Inv l2)
    (v : T) (n : Nat) (vs : List T) :
    Inv (empty : XorLinkedList T) ∧ Inv (push_back l v) ∧ Inv (push_front l v) ∧
    Inv (pop_front l).2 ∧ Inv (pop_back l).2 ∧
    Inv (append l l2).1 ∧ Inv (append l l2).2 ∧
    (∀ p, split_off l n = some p → Inv p.1 ∧ Inv p.2) ∧
    Inv (extend l vs) ∧ Inv (fromList vs) ∧ Inv (clear l) := by
  obtain ⟨xs, hm⟩ := h
  obtain ⟨ys, hm2⟩ := h2
  refine ⟨⟨[], models_empty⟩, ⟨_, models_push_back l xs hm v⟩,
    ⟨_, models_push_front l xs hm v⟩, ?_, ?_, ?_, ⟨[], models_empty⟩, ?_,
    ⟨_, models_extend vs l xs hm⟩, ⟨_, models_fromList vs⟩, ⟨[], models_empty⟩⟩
  · cases xs with
    | nil =>
      rw [pop_front_nil l hm]
      exact ⟨[], hm⟩
    | cons x xs' => exact ⟨xs', (pop_front_cons l x xs' hm).2⟩
  · rcases List.eq_nil_or_concat xs with rfl | ⟨zs, z, hxs⟩
    · rw [pop_back_nil l hm]
      exact ⟨[], hm⟩
    · rw [List.concat_eq_append] at hxs
      subst hxs
      exact ⟨zs, (pop_back_concat l zs z hm).2⟩
  · refine ⟨xs ++ ys, ?_⟩
    show Models (extend l (toList l2)) (xs ++ ys)
    rw [toList_models l2 ys hm2]
    exact models_extend ys l xs hm
  · intro p hp
    by_cases hn : n ≤ xs.length
    · obtain ⟨q, hq, hq1, hq2⟩ := split_off_le l xs hm n hn
      rw [hp] at hq
      obtain rfl : p = q := by injection hq
      exact ⟨⟨_, hq1⟩, ⟨_, hq2⟩⟩
    · have hnone : split_off l n = none := by
        simp only [split_off]
        rw [if_pos (by rw [len_models l xs hm]; omega)]
      rw [hnone] at hp
      exact Option.noConfusion hp

/-- Witness for C8 at concrete lists `[1, 2]` and `[9]`. -/
theorem claim_C8_invariant_witness :
    Inv (fromList [1, 2] : XorLinkedList Nat) ∧ Inv (fromList [9] : XorLinkedList Nat) ∧
    (Inv (empty : XorLinkedList Nat) ∧ Inv (push_back (fromList [1, 2]) 5) ∧
      Inv (push_front (fromList [1, 2]) 5) ∧
      Inv (pop_front (fromList [1, 2] : XorLinkedList Nat)).2 ∧
      Inv (pop_back (fromList [1, 2] : XorLinkedList Nat)).2 ∧
      Inv (append (fromList [1, 2] : XorLinkedList Nat) (fromList [9])).1 ∧
      Inv (append (fromList [1, 2] : XorLinkedList Nat) (fromList [9])).2 ∧
      (∀ p, split_off (fromList [1, 2] : XorLinkedList Nat) 1 = some p →
        Inv p.1 ∧ Inv p.2) ∧
      Inv (extend (fromList [1, 2] : XorLinkedList Nat) [7]) ∧
      Inv (fromList [7] : XorLinkedList Nat) ∧
      Inv (clear (fromList [1, 2] : XorLinkedList Nat))) :=
  ⟨⟨[1, 2], models_fromList _⟩, ⟨[9], models_fromList _⟩,
    claim_C8_invariant (fromList [1, 2]) (fromList [9]) ⟨[1, 2], models_fromList _⟩
      ⟨[9], models_fromList _⟩ 5 1 [7]⟩

/-! ### The double-ended cursor -/

theorem iterInv_iter (l : XorLinkedList T) (xs : List T) (h : Models l xs) :
    IterInv (iter l) xs := by
  obtain ⟨addrs, hnd, hc, hh, ht, hl⟩ := h
  exact ⟨addrs, hc, hh, ht, hl⟩

theorem iter_next_eval (it : Iter T) (n : Node T) (h0 : it.remaining ≠ 0)
    (hm : getNode it.arena it.fCurr = some n) :
    Iter.next it = (some n.elem,
      { it with fPrev := it.fCurr, fCurr := n.link ^^^ it.fPrev,
                remaining := it.remaining - 1 }) := by
  unfold Iter.next
  rw [if_neg h0, hm]

theorem iter_next_back_eval (it : Iter T) (n : Node T) (h0 : it.remaining ≠ 0)
    (hm : getNode it.arena it.bCurr = some n) :
    Iter.next_back it = (some n.elem,
      { it with bNext := it.bCurr, bCurr := n.link ^^^ it.bNext,
                remaining := it.remaining - 1 }) := by
  unfold Iter.next_back
  rw [if_neg h0, hm]

theorem iter_next_nil (it : Iter T) (h : IterInv it []) :
    Iter.next it = (none, it) ∧ Iter.next_back it = (none, it) := by
  obtain ⟨addrs, hc, hf, hb, hr⟩ := h
  have haddrs : addrs = [] := by
    cases addrs with
    | nil => rfl
    | cons a rest => exact absurd hc (by simp [chain])
  subst haddrs
  have hr0 : it.remaining = 0 := by simpa using hr
  unfold Iter.next Iter.next_back
  rw [if_pos hr0, if_pos hr0]
  exact ⟨rfl, rfl⟩

theorem iter_next_cons (it : Iter T) (y : T) (ys : List T)
    (h : IterInv it (y :: ys)) :
    (Iter.next it).1 = some y ∧ IterInv (Iter.next it).2 ys := by
  obtain ⟨addrs, hc, hf, hb, hr⟩ := h
  cases addrs with
  | nil => exact absurd hc (by simp [chain])
  | cons a rest =>
    obtain ⟨ha0, hn, hc2⟩ := hc
    have hf' : it.fCurr = a := by simpa using hf
    have hr' : it.remaining = rest.length + 1 := by simpa using hr
    have hn' : getNode it.arena it.fCurr
        = some ⟨y, it.fPrev ^^^ rest.headD it.bNext⟩ := by
      rw [hf']; exact hn
    rw [iter_next_eval it _ (by omega) hn']
    refine ⟨rfl, rest, ?_, ?_, ?_, ?_⟩
    · show chain it.arena it.fCurr rest ys it.bNext
      rw [hf']; exact hc2
    · show (it.fPrev ^^^ rest.headD it.bNext) ^^^ it.fPrev = rest.headD it.bNext
      rw [Nat.xor_comm it.fPrev _, Nat.xor_assoc, Nat.xor_self, Nat.xor_zero]
    · show it.bCurr = rest.getLastD it.fCurr
      rw [hb, hf', List.getLastD_cons]
    · show it.remaining - 1 = rest.length
      omega

theorem iter_next_back_concat (it : Iter T) (ys : List T) (y : T)
    (h : IterInv it (ys ++ [y])) :
    (Iter.next_back it).1 = some y ∧ IterInv (Iter.next_back it).2 ys := by
  obtain ⟨addrs, hc, hf, hb, hr⟩ := h
  have hlen := chain_length it.arena it.fPrev addrs (ys ++ [y]) it.bNext hc
  rcases List.eq_nil_or_concat addrs with rfl | ⟨init, t, haddrs⟩
  · simp at hlen
  rw [List.concat_eq_append] at haddrs
  subst haddrs
  have hlen2 : init.length = ys.length := by simpa using hlen
  rw [chain_append it.arena it.fPrev it.bNext init [t] ys [y] hlen2] at hc
  obtain ⟨hci, ht0, hnt, -⟩ := hc
  have hb' : it.bCurr = t := by rw [hb, List.getLastD_concat]
  have hnt' : getNode it.arena it.bCurr
      = some ⟨y, init.getLastD it.fPrev ^^^ it.bNext⟩ := by
    rw [hb']
    simpa using hnt
  have hr' : it.remaining = init.length + 1 := by rw [hr]; simp
  rw [iter_next_back_eval it _ (by omega) hnt']
  refine ⟨rfl, init, ?_, ?_, ?_, ?_⟩
  · show chain it.arena it.fPrev init ys it.bCurr
    rw [hb']
    simpa using hci
  · show it.fCurr = init.headD it.bCurr
    rw [hf, hb']
    cases init <;> simp
  · show (init.getLastD it.fPrev ^^^ it.bNext) ^^^ it.bNext = init.getLastD it.fPrev
    rw [Nat.xor_assoc, Nat.xor_self, Nat.xor_zero]
  · show it.remaining - 1 = init.length
    omega

theorem runIter_drainSpec (ops : List Bool) : ∀ (it : Iter T) (ys : List T),
    IterInv it ys → runIter ops it = drainSpec ops ys := by
  induction ops with
  | nil => intro it ys h; rfl
  | cons d ops ih =>
    intro it ys hinv
    cases d with
    | true =>
      cases ys with
      | nil =>
        have h1 := (iter_next_nil it hinv).1
        simp only [runIter, drainSpec, if_true]
        rw [h1]
        exact congrArg (List.cons none) (ih it [] hinv)
      | cons y ys' =>
        obtain ⟨h1, h2⟩ := iter_next_cons it y ys' hinv
        have hp : Iter.next it = (some y, (Iter.next it).2) := by rw [← h1]
        simp only [runIter, drainSpec, if_true]
        rw [hp]
        exact congrArg (List.cons (some y)) (ih (Iter.next it).2 ys' h2)
    | false =>
      rcases List.eq_nil_or_concat ys with rfl | ⟨zs, z, hys⟩
      · have h1 := (iter_next_nil it hinv).2
        simp only [runIter, drainSpec, if_false]
        rw [h1]
        exact congrArg (List.cons none) (ih it [] hinv)
      · rw [List.concat_eq_append] at hys
        subst hys
        obtain ⟨h1, h2⟩ := iter_next_back_concat it zs z hinv
        have hp : Iter.next_back it = (some z, (Iter.next_back it).2) := by rw [← h1]
        simp only [runIter, drainSpec, if_false]
        rw [hp, List.getLast?_concat, List.dropLast_concat]
        exact congrArg (List.cons (some z)) (ih (Iter.next_back it).2 zs h2)

/-! ### The reference drain -/

theorem drainSpec_all_front (xs : List T) :
    drainSpec (List.replicate xs.length true) xs = xs.map some := by
  induction xs with
  | nil => rfl
  | cons x xs ih =>
    rw [List.length_cons, List.replicate_succ]
    simp only [drainSpec]
    rw [ih]
    rfl

theorem drainSpec_all_back (n : Nat) : ∀ xs : List T, xs.length = n →
    drainSpec (List.replicate n false) xs = xs.reverse.map some := by
  induction n with
  | zero =>
    intro xs h
    have : xs = [] := List.eq_nil_of_length_eq_zero h
    subst this
    rfl
  | succ n ih =>
    intro xs h
    rcases List.eq_nil_or_concat xs with rfl | ⟨zs, z, hxs⟩
    · simp at h
    · rw [List.concat_eq_append] at hxs
      subst hxs
      rw [List.replicate_succ]
      simp only [drainSpec]
      rw [List.getLast?_concat, List.dropLast_concat]
      rw [ih zs (by simpa using h)]
      simp

theorem drainSpec_perm (ops : List Bool) : ∀ xs : List T, xs.length ≤ ops.length →
    ((drainSpec ops xs).reduceOption).Perm xs := by
  induction ops with
  | nil =>
    intro xs h
    have : xs = [] := List.eq_nil_of_length_eq_zero (by simpa using h)
    subst this
    rfl
  | cons d ops ih =>
    intro xs h
    cases d with
    | true =>
      cases xs with
      | nil =>
        simp only [drainSpec, List.reduceOption_cons_of_none]
        exact ih [] (by simp)
      | cons x xs' =>
        simp only [drainSpec, List.reduceOption_cons_of_some]
        exact (ih xs' (by simpa using h)).cons x
    | false =>
      rcases List.eq_nil_or_concat xs with rfl | ⟨zs, z, hxs⟩
      · simp only [drainSpec, List.reduceOption_cons_of_none]
        exact ih [] (by simp)
      · rw [List.concat_eq_append] at hxs
        subst hxs
        simp only [drainSpec]
        rw [List.getLast?_concat, List.dropLast_concat]
        simp only [List.reduceOption_cons_of_some]
        refine List.Perm.trans ((ih zs ?_).cons z) (List.perm_append_singleton z zs).symm
        have := h
        simp only [List.length_append, List.length_singleton, List.length_cons] at this
        omega

/-- C5: a cursor obtained from `iter()`/`iter_mut()`/`into_iter()` behaves,
under any interleaving of `next` and `next_back`, exactly like the
reference double-ended drain of the element sequence: forward-only
stepping yields the elements in list order, backward-only stepping yields
them in reverse, a full interleaved drain yields every element exactly
once, and both directions yield nothing after the ends meet. -/
theorem claim_C5_iteration (l : XorLinkedList T) (xs : List T) (h : Models l xs)
    (ops : List Bool) :
    runIter ops (iter l) = drainSpec ops xs ∧
    runIter (List.replicate xs.length true) (iter l) = xs.map some ∧
    runIter (List.replicate xs.length false) (iter l) = xs.reverse.map some ∧
    (xs.length ≤ ops.length → ((runIter ops (iter l)).reduceOption).Perm xs) ∧
    iter_mut l = iter l ∧ into_iter l = iter l := by
  have hinv := iterInv_iter l xs h
  refine ⟨runIter_drainSpec ops (iter l) xs hinv, ?_, ?_, ?_, rfl, rfl⟩
  · rw [runIter_drainSpec _ (iter l) xs hinv, drainSpec_all_front]
  · rw [runIter_drainSpec _ (iter l) xs hinv, drainSpec_all_back xs.length xs rfl]
  · intro hle
    rw [runIter_drainSpec ops (iter l) xs hinv]
    exact drainSpec_perm ops xs hle

/-- Witness for C5: the spec's `[1,2,3,4]` example with an interleaved
schedule. -/
theorem claim_C5_iteration_witness :
    Models (fromList [1, 2, 3, 4] : XorLinkedList Nat) [1, 2, 3, 4] ∧
    (runIter [true, false, true, false, true]
        (iter (fromList [1, 2, 3, 4] : XorLinkedList Nat))
      = drainSpec [true, false, true, false, true] [1, 2, 3, 4] ∧
    runIter (List.replicate 4 true) (iter (fromList [1, 2, 3, 4] : XorLinkedList Nat))
      = [1, 2, 3, 4].map some ∧
    runIter (List.replicate 4 false) (iter (fromList [1, 2, 3, 4] : XorLinkedList Nat))
      = [1, 2, 3, 4].reverse.map some ∧
    (4 ≤ 5 → ((runIter [true, false, true, false, true]
        (iter (fromList [1, 2, 3, 4] : XorLinkedList Nat))).reduceOption).Perm
          [1, 2, 3, 4]) ∧
    iter_mut (fromList [1, 2, 3, 4] : XorLinkedList Nat) = iter (fromList [1, 2, 3, 4]) ∧
    into_iter (fromList [1, 2, 3, 4] : XorLinkedList Nat) = iter (fromList [1, 2, 3, 4])) :=
  ⟨models_fromList _,
    by simpa using claim_C5_iteration (fromList [1, 2, 3, 4]) [1, 2, 3, 4]
         (models_fromList _) [true, false, true, false, true]⟩

/-! ### Element-wise equality and lexicographic order -/

theorem lex_nil_right {r : T → T → Prop} (xs : List T) : ¬ List.Lex r xs [] := by
  intro h
  cases h

theorem eqList_iff [DecidableEq T] : ∀ xs ys : List T, eqList xs ys = true ↔ xs = ys := by
  intro xs
  induction xs with
  | nil =>
    intro ys
    cases ys <;> simp [eqList]
  | cons x xs ih =>
    intro ys
    cases ys with
    | nil => simp [eqList]
    | cons y ys =>
      by_cases hxy : x = y
      · simp [eqList, hxy, ih ys]
      · simp [eqList, hxy]

theorem cmpList_eq_iff [LinearOrder T] : ∀ xs ys : List T,
    cmpList xs ys = Ordering.eq ↔ xs = ys := by
  intro xs
  induction xs with
  | nil =>
    intro ys
    cases ys <;> simp [cmpList]
  | cons x xs ih =>
    intro ys
    cases ys with
    | nil => simp [cmpList]
    | cons y ys =>
      by_cases h1 : x < y
      · simp [cmpList, h1, ne_of_lt h1]
      · by_cases h2 : y < x
        · simp [cmpList, h1, h2, (ne_of_lt h2).symm]
        · have hxy : x = y := le_antisymm (not_lt.mp h2) (not_lt.mp h1)
          subst hxy
          simp [cmpList, h1, ih ys]

theorem cmpList_lt_iff [LinearOrder T] : ∀ xs ys : List T,
    cmpList xs ys = Ordering.lt ↔ List.Lex (· < ·) xs ys := by
  intro xs
  induction xs with
  | nil =>
    intro ys
    cases ys with
    | nil =>
      simp only [cmpList]
      exact iff_of_false (by simp) (lex_nil_right [])
    | cons y ys =>
      simp only [cmpList]
      exact iff_of_true trivial List.Lex.nil
  | cons x xs ih =>
    intro ys
    cases ys with
    | nil =>
      simp only [cmpList]
      exact iff_of_false (by simp) (lex_nil_right (x :: xs))
    | cons y ys =>
      by_cases h1 : x < y
      · simp only [cmpList, if_pos h1]
        exact iff_of_true trivial (List.Lex.rel h1)
      · by_cases h2 : y < x
        · simp only [cmpList, if_neg h1, if_pos h2]
          refine iff_of_false (by simp) ?_
          intro hlex
          cases hlex with
          | cons h => exact absurd h2 (lt_irrefl _)
          | rel h => exact absurd h h1
        · have hxy : x = y := le_antisymm (not_lt.mp h2) (not_lt.mp h1)
          subst hxy
          simp only [cmpList, if_neg h1]
          rw [ih ys]
          constructor
          · exact List.Lex.cons
          · intro hlex
            cases hlex with
            | cons h => exact h
            | rel h => exact absurd h h1

theorem cmpList_gt_iff [LinearOrder T] : ∀ xs ys : List T,
    cmpList xs ys = Ordering.gt ↔ List.Lex (· < ·) ys xs := by
  intro xs
  induction xs with
  | nil =>
    intro ys
    cases ys with
    | nil =>
      simp only [cmpList]
      exact iff_of_false (by simp) (lex_nil_right [])
    | cons y ys =>
      simp only [cmpList]
      exact iff_of_false (by simp) (lex_nil_right (y :: ys))
  | cons x xs ih =>
    intro ys
    cases ys with
    | nil =>
      simp only [cmpList]
      exact iff_of_true trivial List.Lex.nil
    | cons y ys =>
      by_cases h1 : x < y
      · simp only [cmpList, if_pos h1]
        refine iff_of_false (by simp) ?_
        intro hlex
        cases hlex with
        | cons h => exact absurd h1 (lt_irrefl _)
        | rel h => exact absurd h1 (asymm h)
      · by_cases h2 : y < x
        · simp only [cmpList, if_neg h1, if_pos h2]
          exact iff_of_true trivial (List.Lex.rel h2)
        · have hxy : x = y := le_antisymm (not_lt.mp h2) (not_lt.mp h1)
          subst hxy
          simp only [cmpList, if_neg h1]
          rw [ih ys]
          constructor
          · exact List.Lex.cons
          · intro hlex
            cases hlex with
            | cons h => exact h
            | rel h => exact absurd h h1

/-- C9: `eq` holds exactly on equal element sequences, `cmp` orders lists
lexicographically by their element sequences (with `partial_cmp` agreeing),
and two lists built from the same sequence compare equal. -/
theorem claim_C9_ordering [LinearOrder T] [DecidableEq T] (a b : XorLinkedList T)
    (xs ys : List T) (ha : Models a xs) (hb : Models b ys) :
    (eq a b = true ↔ xs = ys) ∧
    (cmp a b = Ordering.eq ↔ xs = ys) ∧
    (cmp a b = Ordering.lt ↔ List.Lex (· < ·) xs ys) ∧
    (cmp a b = Ordering.gt ↔ List.Lex (· < ·) ys xs) ∧
    partial_cmp a b = some (cmp a b) ∧
    (∀ vs : List T, eq (fromList vs) (fromList vs) = true ∧
      cmp (fromList vs) (fromList vs) = Ordering.eq) := by
  unfold eq partial_cmp cmp
  rw [toList_models a xs ha, toList_models b ys hb]
  refine ⟨eqList_iff xs ys, cmpList_eq_iff xs ys, cmpList_lt_iff xs ys,
    cmpList_gt_iff xs ys, rfl, ?_⟩
  intro vs
  rw [toList_models _ _ (models_fromList vs)]
  exact ⟨(eqList_iff vs vs).mpr rfl, (cmpList_eq_iff vs vs).mpr rfl⟩

/-- Witness for C9 at the concrete lists `[1, 2]` and `[1, 3]`. -/
theorem claim_C9_ordering_witness :
    Models (fromList [1, 2] : XorLinkedList Nat) [1, 2] ∧
    Models (fromList [1, 3] : XorLinkedList Nat) [1, 3] ∧
    ((eq (fromList [1, 2] : XorLinkedList Nat) (fromList [1, 3]) = true ↔
        ([1, 2] : List Nat) = [1, 3]) ∧
      (cmp (fromList [1, 2] : XorLinkedList Nat) (fromList [1, 3]) = Ordering.eq ↔
        ([1, 2] : List Nat) = [1, 3]) ∧
      (cmp (fromList [1, 2] : XorLinkedList Nat) (fromList [1, 3]) = Ordering.lt ↔
        List.Lex (· < ·) [1, 2] [1, 3]) ∧
      (cmp (fromList [1, 2] : XorLinkedList Nat) (fromList [1, 3]) = Ordering.gt ↔
        List.Lex (· < ·) [1, 3] [1, 2]) ∧
      partial_cmp (fromList [1, 2] : XorLinkedList Nat) (fromList [1, 3])
        = some (cmp (fromList [1, 2]) (fromList [1, 3])) ∧
      (∀ vs : List Nat, eq (fromList vs) (fromList vs) = true ∧
        cmp (fromList vs) (fromList vs) = Ordering.eq)) :=
  ⟨models_fromList _, models_fromList _,
    claim_C9_ordering (fromList [1, 2]) (fromList [1, 3]) [1, 2] [1, 3]
      (models_fromList _) (models_fromList _)⟩

end XorLinkedList

/-! ## Claim theorems for the Sync implementor table -/

/-- C10 counterexample: the recorded `Sync` impl for `XorLinkedList<T>`
does not require only `T: Sync` — its where-clause also carries a `Debug`
bound, a further constraint on the element type. -/
theorem claim_C10_sync_counterexample :
    syncBounds "XorLinkedList" "T" ≠ some [TraitBound.sync] ∧
    syncBounds "XorLinkedList" "T" = some [TraitBound.sync, TraitBound.debug] ∧
    TraitBound.debug ∈ [TraitBound.sync, TraitBound.debug] := by
  refine ⟨by decide, by decide, by decide⟩

/-- C10 amended: per the recorded implementor table, `BTrieMap<K, V>` is
`Sync` whenever `K` and `V` are `Sync`, while `XorLinkedList<T>` and its
iterators (`Iter`, `IterMut`, `IntoIter`) require `T: Sync + Debug` — an
additional `Debug` bound on the element type. -/
theorem claim_C10_sync_amended :
    syncBounds "BTrieMap" "K" = some [TraitBound.sync] ∧
    syncBounds "BTrieMap" "V" = some [TraitBound.sync] ∧
    syncBounds "XorLinkedList" "T" = some [TraitBound.sync, TraitBound.debug] ∧
    syncBounds "Iter" "T" = some [TraitBound.sync, TraitBound.debug] ∧
    syncBounds "IterMut" "T" = some [TraitBound.sync, TraitBound.debug] ∧
    syncBounds "IntoIter" "T" = some [TraitBound.debug, TraitBound.sync] := by
  refine ⟨by decide, by decide, by decide, by decide, by decide, by decide⟩

end RustUtils
